import Mathlib

/-
Verification of the reis-finance core components against their source:
the perpetual-inventory average-cost engine (src/lib/perpetual_inventory.rs),
the currency normalizer (src/lib/currency.rs) and the market-data cache
(src/lib/scraper/cache.rs).  Tables are embedded as lists of typed rows,
f64 arithmetic as exact rational arithmetic, and chrono::NaiveDate as the
number of days since 1970-01-01 (which was a Thursday).
-/

namespace ReisFinance

/-- Days since 1970-01-01 (a Thursday), mirroring chrono::NaiveDate. -/
abbrev Date := Int

/- ------------------------------------------------------------------
   Generic list helpers mirroring the Vec/Series operations used by the
   source: `sort` (stable comparison sort; only membership matters to the
   properties below, so a simple insertion sort is used), `dedup`
   (removes consecutive duplicates, as Vec::dedup does) and
   `unique(keep="first")` (polars row de-duplication keeping the first
   occurrence).
   ------------------------------------------------------------------ -/

/-- Insert into a sorted list according to a boolean comparison. -/
def insertLe {α : Type} (le : α → α → Bool) (a : α) : List α → List α
  | [] => [a]
  | b :: l => if le a b then a :: b :: l else b :: insertLe le a l

/-- Insertion sort by a boolean comparison; models `Vec::sort` /
polars `sort`. -/
def sortLe {α : Type} (le : α → α → Bool) : List α → List α
  | [] => []
  | a :: l => insertLe le a (sortLe le l)

/-- Remove consecutive duplicate elements; models `Vec::dedup`. -/
def dedupAdj {α : Type} [DecidableEq α] : List α → List α
  | [] => []
  | [a] => [a]
  | a :: b :: rest =>
      if a = b then dedupAdj (b :: rest) else a :: dedupAdj (b :: rest)

/-- Helper for `dedupFirst`, carrying the set of already seen elements. -/
def dedupFirstAux {α : Type} [DecidableEq α] (seen : List α) : List α → List α
  | [] => []
  | a :: rest =>
      if a ∈ seen then dedupFirstAux seen rest
      else a :: dedupFirstAux (a :: seen) rest

/-- Keep the first occurrence of every element; models polars
`unique(None, UniqueKeepStrategy::First)`. -/
def dedupFirst {α : Type} [DecidableEq α] (l : List α) : List α :=
  dedupFirstAux [] l

theorem mem_insertLe {α : Type} (le : α → α → Bool) (a x : α) (l : List α) :
    x ∈ insertLe le a l ↔ x = a ∨ x ∈ l := by
  induction l with
  | nil => simp [insertLe]
  | cons b t ih =>
      simp only [insertLe]
      split
      · simp
      · simp only [List.mem_cons, ih]
        tauto

theorem mem_sortLe {α : Type} (le : α → α → Bool) (x : α) (l : List α) :
    x ∈ sortLe le l ↔ x ∈ l := by
  induction l with
  | nil => simp [sortLe]
  | cons a t ih => simp [sortLe, mem_insertLe, ih]

theorem mem_dedupAdj {α : Type} [DecidableEq α] (x : α) (l : List α) :
    x ∈ dedupAdj l ↔ x ∈ l := by
  induction l with
  | nil => simp [dedupAdj]
  | cons a t ih =>
      match t with
      | [] => simp [dedupAdj]
      | b :: rest =>
          simp only [dedupAdj]
          split
          · rename_i hab
            rw [ih]
            subst hab
            simp only [List.mem_cons]
            tauto
          · simp only [List.mem_cons] at ih ⊢
            rw [ih]

theorem mem_dedupFirstAux {α : Type} [DecidableEq α] (x : α) (l seen : List α) :
    x ∈ dedupFirstAux seen l ↔ x ∈ l ∧ x ∉ seen := by
  induction l generalizing seen with
  | nil => simp [dedupFirstAux]
  | cons a t ih =>
      simp only [dedupFirstAux]
      split
      · rename_i ha
        rw [ih]
        constructor
        · rintro ⟨hx, hs⟩; exact ⟨List.mem_cons_of_mem _ hx, hs⟩
        · rintro ⟨hx, hs⟩
          rcases List.mem_cons.mp hx with rfl | hx
          · exact absurd ha hs
          · exact ⟨hx, hs⟩
      · rename_i ha
        simp only [List.mem_cons, ih, List.mem_cons]
        constructor
        · rintro (rfl | ⟨hx, hs⟩)
          · exact ⟨Or.inl rfl, ha⟩
          · exact ⟨Or.inr hx, fun h => hs (Or.inr h)⟩
        · rintro ⟨rfl | hx, hs⟩
          · exact Or.inl rfl
          · by_cases hxa : x = a
            · exact Or.inl hxa
            · exact Or.inr ⟨hx, fun h => hs (h.resolve_left hxa)⟩

theorem mem_dedupFirst {α : Type} [DecidableEq α] (x : α) (l : List α) :
    x ∈ dedupFirst l ↔ x ∈ l := by
  simp [dedupFirst, mem_dedupFirstAux]

/- ------------------------------------------------------------------
   Data model (src/lib/schema.rs)
   ------------------------------------------------------------------ -/

/-- The `Action` enum of src/lib/schema.rs. -/
inductive Action where
  | Sell
  | Buy
  | Split
  | Dividend
  | Deposit
  | Tax
  | Fee
  | Interest
  | Withdraw
  | Ignore
deriving DecidableEq, Repr

/-- One ledger row, restricted to the columns that the average-cost
engine reads (Ticker, Date, Qty, Price, Action). -/
structure Order where
  ticker : String
  date : Date
  qty : ℚ
  price : ℚ
  action : Action
deriving DecidableEq, Repr

/- ------------------------------------------------------------------
   Average-cost engine (src/lib/perpetual_inventory.rs)
   ------------------------------------------------------------------ -/

/-- `utils::polars::filter::buy_or_sell_or_split`: keeps only Buy, Sell
and Split rows. -/
def buy_or_sell_or_split (o : Order) : Bool :=
  match o.action with
  | Action.Buy => true
  | Action.Sell => true
  | Action.Split => true
  | _ => false

/-- One step of the per-ticker fold of `AverageCost::with_cumulative`
(src/lib/perpetual_inventory.rs lines 54-64).  The state is
`(cum_price, cum_qty)`.  The wildcard branch of the source panics
("Unsupported action"); it is unreachable because the rows were filtered
by `buy_or_sell_or_split`, so it is embedded as the identity. -/
def costStep (s : ℚ × ℚ) (o : Order) : ℚ × ℚ :=
  match o.action with
  | Action.Split => (s.1 / o.qty, s.2 * o.qty)
  | Action.Sell => (s.1, s.2 - o.qty)
  | Action.Buy =>
      let new_cum_qty := s.2 + o.qty
      ((s.1 * s.2 + o.price * o.qty) / new_cum_qty, new_cum_qty)
  | _ => s

/-- The rows of `l` belonging to ticker `t` (the polars grouping
`.over([col(Ticker)])` partitions rows by this predicate). -/
def tickerGroup (t : String) (l : List Order) : List Order :=
  l.filter (fun o => o.ticker = t)

/-- Row-by-row result of the grouped running fold: row `i` is paired
with the fold of `costStep` over the rows of its own ticker among the
first `i+1` rows, starting from `(0, 0)`.  This is the positional
semantics of the polars `apply(...).over([Ticker])` scan in
`with_cumulative`: each group is scanned incrementally and the running
states are broadcast back to the original row positions.  `done` holds
the rows already consumed. -/
def scanGroups (done : List Order) : List Order → List (Order × ℚ × ℚ)
  | [] => []
  | o :: rest =>
      (o, (tickerGroup o.ticker (done ++ [o])).foldl costStep (0, 0)) ::
        scanGroups (done ++ [o]) rest

/-- `AverageCost::with_cumulative`: filter to Buy/Sell/Split rows, then
annotate every row with its running `(average_cost, accrued_quantity)`
per ticker. -/
def with_cumulative (orders : List Order) : List (Order × ℚ × ℚ) :=
  scanGroups [] (orders.filter buy_or_sell_or_split)

/-- Sum of the `Qty` column. -/
def qtySum (l : List Order) : ℚ := (l.map (fun o => o.qty)).sum

/-- Sum of `Price * Qty` over the rows. -/
def costSum (l : List Order) : ℚ := (l.map (fun o => o.price * o.qty)).sum

theorem scanGroups_length (done : List Order) (l : List Order) :
    (scanGroups done l).length = l.length := by
  induction l generalizing done with
  | nil => simp [scanGroups]
  | cons o rest ih => simp [scanGroups, ih]

theorem scanGroups_getElem (l : List Order) :
    ∀ (done : List Order) (i : ℕ) (hi : i < l.length),
      (scanGroups done l)[i]? =
        some (l.get ⟨i, hi⟩,
          (tickerGroup (l.get ⟨i, hi⟩).ticker (done ++ l.take (i + 1))).foldl costStep (0, 0)) := by
  induction l with
  | nil => intro done i hi; simp at hi
  | cons o rest ih =>
      intro done i hi
      match i with
      | 0 => simp [scanGroups]
      | Nat.succ j =>
          have hj : j < rest.length := Nat.lt_of_succ_lt_succ hi
          simp only [scanGroups, List.getElem?_cons_succ]
          rw [ih (done ++ [o]) j hj]
          have harr : done ++ [o] ++ rest.take (j + 1) =
              done ++ (o :: rest).take (j + 1 + 1) := by
            simp [List.append_assoc]
          rw [harr]
          rfl

/-- Characterization of a row of `with_cumulative`: the row is the
`i`-th filtered row and its state is the fold over its ticker's rows
among the first `i+1` filtered rows. -/
theorem with_cumulative_getElem (orders : List Order) (i : ℕ) (o : Order) (st : ℚ × ℚ)
    (h : (with_cumulative orders)[i]? = some (o, st)) :
    ∃ hi : i < (orders.filter buy_or_sell_or_split).length,
      (orders.filter buy_or_sell_or_split).get ⟨i, hi⟩ = o ∧
        st = (tickerGroup o.ticker
                ((orders.filter buy_or_sell_or_split).take (i + 1))).foldl costStep (0, 0) := by
  have hi : i < (orders.filter buy_or_sell_or_split).length := by
    by_contra hni
    push_neg at hni
    have hnone : (with_cumulative orders)[i]? = none := by
      apply List.getElem?_eq_none
      rw [with_cumulative, scanGroups_length]
      exact hni
    rw [hnone] at h
    exact Option.noConfusion h
  have h2 := scanGroups_getElem (orders.filter buy_or_sell_or_split) [] i hi
  rw [with_cumulative] at h
  rw [h2] at h
  simp only [List.nil_append, Option.some.injEq, Prod.mk.injEq] at h
  obtain ⟨ho, hst⟩ := h
  refine ⟨hi, ho, ?_⟩
  rw [← ho]
  exact hst.symm

/-- For a run of Buy rows with positive quantities, the fold computes the
quantity-weighted mean of the prices and the plain sum of the quantities. -/
theorem foldl_buys (l : List Order) :
    ∀ c q : ℚ, (∀ o ∈ l, o.action = Action.Buy ∧ 0 < o.qty) → 0 ≤ q → (q = 0 → c = 0) →
      l.foldl costStep (c, q) = ((c * q + costSum l) / (q + qtySum l), q + qtySum l) := by
  induction l with
  | nil =>
      intro c q _ hq hq0
      simp only [List.foldl_nil, costSum, qtySum, List.map_nil, List.sum_nil, add_zero]
      by_cases h : q = 0
      · subst h
        rw [hq0 rfl]
        norm_num
      · rw [mul_div_assoc, div_self h, mul_one]
  | cons o rest ih =>
      intro c q hall hq hq0
      obtain ⟨hbuy, hpos⟩ := hall o (List.mem_cons_self o rest)
      have hrest : ∀ x ∈ rest, x.action = Action.Buy ∧ 0 < x.qty :=
        fun x hx => hall x (List.mem_cons_of_mem _ hx)
      have hq' : 0 < q + o.qty := add_pos_of_nonneg_of_pos hq hpos
      have hstep : costStep (c, q) o =
          ((c * q + o.price * o.qty) / (q + o.qty), q + o.qty) := by
        simp [costStep, hbuy]
      rw [List.foldl_cons, hstep,
        ih _ _ hrest (le_of_lt hq') (fun h => absurd h (ne_of_gt hq'))]
      rw [div_mul_cancel₀ _ (ne_of_gt hq')]
      simp only [costSum, qtySum, List.map_cons, List.sum_cons, Prod.mk.injEq]
      constructor
      · congr 1 <;> ring
      · ring

/-- Claim C1: for a ledger whose rows of ticker `t` are all Buy rows with
positive quantity, `with_cumulative` produces at each row of ticker `t`
an accrued quantity equal to the sum of the quantities seen so far and
an average cost equal to the quantity-weighted mean of the buy prices
seen so far; rows of other tickers never affect this, since ticker
groups are folded independently. -/
theorem c1_average_cost_buys_only (orders : List Order) (t : String)
    (hbuy : ∀ o ∈ orders, o.ticker = t → o.action = Action.Buy ∧ 0 < o.qty)
    (i : ℕ) (o : Order) (st : ℚ × ℚ)
    (hrow : (with_cumulative orders)[i]? = some (o, st))
    (ht : o.ticker = t) :
    st = (costSum (tickerGroup t ((orders.filter buy_or_sell_or_split).take (i + 1))) /
            qtySum (tickerGroup t ((orders.filter buy_or_sell_or_split).take (i + 1))),
          qtySum (tickerGroup t ((orders.filter buy_or_sell_or_split).take (i + 1)))) := by
  obtain ⟨hi, ho, hst⟩ := with_cumulative_getElem orders i o st hrow
  rw [ht] at hst
  have hmem : ∀ x ∈ tickerGroup t ((orders.filter buy_or_sell_or_split).take (i + 1)),
      x.action = Action.Buy ∧ 0 < x.qty := by
    intro x hx
    have hxt : x.ticker = t := by
      have := List.of_mem_filter hx
      simpa using this
    have hx1 : x ∈ (orders.filter buy_or_sell_or_split).take (i + 1) :=
      List.mem_of_mem_filter hx
    have hx2 : x ∈ orders.filter buy_or_sell_or_split := List.take_subset _ _ hx1
    exact hbuy x (List.mem_of_mem_filter hx2) hxt
  rw [hst, foldl_buys _ 0 0 hmem le_rfl (fun _ => rfl)]
  norm_num

/-- The GOOGL scenario of the spec, with an unrelated APPL buy
interleaved: 8 units @ 34.45 then 4 units @ 32.50. -/
def ordersGOOGLBuys : List Order :=
  [⟨"GOOGL", 0, 8, 34.45, Action.Buy⟩,
   ⟨"APPL", 1, 10, 98, Action.Buy⟩,
   ⟨"GOOGL", 2, 4, 32.50, Action.Buy⟩]

/-- Witness for C1: after the two GOOGL buys (with an APPL buy in
between), the state is average cost 33.8 = 169/5 and accrued
quantity 12. -/
theorem c1_witness :
    ((169 / 5 : ℚ), (12 : ℚ)) =
      (costSum (tickerGroup "GOOGL" ((ordersGOOGLBuys.filter buy_or_sell_or_split).take (2 + 1))) /
         qtySum (tickerGroup "GOOGL" ((ordersGOOGLBuys.filter buy_or_sell_or_split).take (2 + 1))),
       qtySum (tickerGroup "GOOGL" ((ordersGOOGLBuys.filter buy_or_sell_or_split).take (2 + 1)))) :=
  c1_average_cost_buys_only ordersGOOGLBuys "GOOGL" (by decide) 2
    ⟨"GOOGL", 2, 4, 32.50, Action.Buy⟩ ((169 / 5 : ℚ), (12 : ℚ)) (by
      simp only [with_cumulative, scanGroups, tickerGroup, costStep, buy_or_sell_or_split,
        ordersGOOGLBuys, List.filter, List.foldl, List.append_eq, List.nil_append,
        String.reduceEq, decide_True, decide_False, List.getElem?_cons_succ,
        List.getElem?_cons_zero]
      norm_num) rfl

/-- Claim C2: a Sell row processed by the average-cost fold leaves the
running average cost unchanged and decreases the accrued quantity by
exactly the row's sold quantity; nothing else in the per-ticker state
changes. -/
theorem c2_sell_invariance (orders : List Order) (i : ℕ) (o : Order) (st : ℚ × ℚ)
    (hrow : (with_cumulative orders)[i]? = some (o, st))
    (hsell : o.action = Action.Sell) :
    st = (((tickerGroup o.ticker ((orders.filter buy_or_sell_or_split).take i)).foldl
             costStep (0, 0)).1,
          ((tickerGroup o.ticker ((orders.filter buy_or_sell_or_split).take i)).foldl
             costStep (0, 0)).2 - o.qty) := by
  obtain ⟨hi, ho, hst⟩ := with_cumulative_getElem orders i o st hrow
  have hsome : (orders.filter buy_or_sell_or_split)[i]? = some o := by
    rw [List.getElem?_eq_getElem hi]
    exact congrArg some ho
  have htake : (orders.filter buy_or_sell_or_split).take (i + 1) =
      (orders.filter buy_or_sell_or_split).take i ++ [o] := by
    rw [List.take_succ, hsome]
    rfl
  rw [htake] at hst
  have hgrp : tickerGroup o.ticker
      ((orders.filter buy_or_sell_or_split).take i ++ [o]) =
      tickerGroup o.ticker ((orders.filter buy_or_sell_or_split).take i) ++ [o] := by
    simp [tickerGroup, List.filter_append]
  rw [hgrp, List.foldl_append] at hst
  rw [hst]
  simp [costStep, hsell]

/-- The GOOGL scenario of the spec: two buys then a sell of 4 units. -/
def ordersGOOGL : List Order :=
  [⟨"GOOGL", 0, 8, 34.45, Action.Buy⟩,
   ⟨"GOOGL", 1, 4, 32.50, Action.Buy⟩,
   ⟨"GOOGL", 2, 4, 33.80, Action.Sell⟩]

/-- Witness for C2: selling 4 GOOGL units keeps the average cost at 33.8
and drops the accrued quantity from 12 to 8. -/
theorem c2_witness :
    ((169 / 5 : ℚ), (8 : ℚ)) =
      (((tickerGroup "GOOGL" ((ordersGOOGL.filter buy_or_sell_or_split).take 2)).foldl
          costStep (0, 0)).1,
       ((tickerGroup "GOOGL" ((ordersGOOGL.filter buy_or_sell_or_split).take 2)).foldl
          costStep (0, 0)).2 - (4 : ℚ)) :=
  c2_sell_invariance ordersGOOGL 2 ⟨"GOOGL", 2, 4, 33.80, Action.Sell⟩
    ((169 / 5 : ℚ), (8 : ℚ)) (by
      simp only [with_cumulative, scanGroups, tickerGroup, costStep, buy_or_sell_or_split,
        ordersGOOGL, List.filter, List.foldl, List.append_eq, List.nil_append,
        String.reduceEq, decide_True, decide_False, List.getElem?_cons_succ,
        List.getElem?_cons_zero]
      norm_num) rfl

/-- Claim C3: a Split row with factor `f` carried in the quantity field
maps the state `(avg, cum_qty)` to `(avg / f, cum_qty * f)`, so the
total cost basis `average_cost * accrued_quantity` is unchanged across
the split (in exact arithmetic, for a nonzero split factor). -/
theorem c3_split_invariance (orders : List Order) (i : ℕ) (o : Order) (st : ℚ × ℚ)
    (hrow : (with_cumulative orders)[i]? = some (o, st))
    (hsplit : o.action = Action.Split)
    (hf : o.qty ≠ 0) :
    st = (((tickerGroup o.ticker ((orders.filter buy_or_sell_or_split).take i)).foldl
             costStep (0, 0)).1 / o.qty,
          ((tickerGroup o.ticker ((orders.filter buy_or_sell_or_split).take i)).foldl
             costStep (0, 0)).2 * o.qty) ∧
      st.1 * st.2 =
        ((tickerGroup o.ticker ((orders.filter buy_or_sell_or_split).take i)).foldl
           costStep (0, 0)).1 *
        ((tickerGroup o.ticker ((orders.filter buy_or_sell_or_split).take i)).foldl
           costStep (0, 0)).2 := by
  obtain ⟨hi, ho, hst⟩ := with_cumulative_getElem orders i o st hrow
  have hsome : (orders.filter buy_or_sell_or_split)[i]? = some o := by
    rw [List.getElem?_eq_getElem hi]
    exact congrArg some ho
  have htake : (orders.filter buy_or_sell_or_split).take (i + 1) =
      (orders.filter buy_or_sell_or_split).take i ++ [o] := by
    rw [List.take_succ, hsome]
    rfl
  rw [htake] at hst
  have hgrp : tickerGroup o.ticker
      ((orders.filter buy_or_sell_or_split).take i ++ [o]) =
      tickerGroup o.ticker ((orders.filter buy_or_sell_or_split).take i) ++ [o] := by
    simp [tickerGroup, List.filter_append]
  rw [hgrp, List.foldl_append] at hst
  have hstep : st = (((tickerGroup o.ticker
      ((orders.filter buy_or_sell_or_split).take i)).foldl costStep (0, 0)).1 / o.qty,
      ((tickerGroup o.ticker
      ((orders.filter buy_or_sell_or_split).take i)).foldl costStep (0, 0)).2 * o.qty) := by
    rw [hst]
    simp [costStep, hsplit]
  refine ⟨hstep, ?_⟩
  rw [hstep]
  field_simp
  ring

/-- A GOOGL buy followed by a 2-for-1 split. -/
def ordersSplit : List Order :=
  [⟨"GOOGL", 0, 8, 34.45, Action.Buy⟩,
   ⟨"GOOGL", 1, 2, 0, Action.Split⟩]

/-- Witness for C3: the 2-for-1 split halves the average cost, doubles
the accrued quantity, and preserves the total cost basis. -/
theorem c3_witness :
    ((689 / 40 : ℚ), (16 : ℚ)) =
      (((tickerGroup "GOOGL" ((ordersSplit.filter buy_or_sell_or_split).take 1)).foldl
          costStep (0, 0)).1 / (2 : ℚ),
       ((tickerGroup "GOOGL" ((ordersSplit.filter buy_or_sell_or_split).take 1)).foldl
          costStep (0, 0)).2 * (2 : ℚ)) ∧
      (689 / 40 : ℚ) * (16 : ℚ) =
        ((tickerGroup "GOOGL" ((ordersSplit.filter buy_or_sell_or_split).take 1)).foldl
           costStep (0, 0)).1 *
        ((tickerGroup "GOOGL" ((ordersSplit.filter buy_or_sell_or_split).take 1)).foldl
           costStep (0, 0)).2 :=
  c3_split_invariance ordersSplit 1 ⟨"GOOGL", 1, 2, 0, Action.Split⟩
    ((689 / 40 : ℚ), (16 : ℚ)) (by
      simp only [with_cumulative, scanGroups, tickerGroup, costStep, buy_or_sell_or_split,
        ordersSplit, List.filter, List.foldl, List.append_eq, List.nil_append,
        String.reduceEq, decide_True, decide_False, List.getElem?_cons_succ,
        List.getElem?_cons_zero]
      norm_num) rfl (by norm_num)

/- ------------------------------------------------------------------
   Market-data cache (src/lib/scraper/cache.rs, src/lib/scraper/mod.rs)
   ------------------------------------------------------------------ -/

/-- Lexicographic comparison of char lists (Rust compares `String`s
lexicographically); used as the boolean comparison for sorting. -/
def strLtB : List Char → List Char → Bool
  | [], [] => false
  | [], _ :: _ => true
  | _ :: _, [] => false
  | a :: as, b :: bs =>
      if a < b then true else if b < a then false else strLtB as bs

/-- Boolean `≤` on strings. -/
def strLeB (a b : String) : Bool := !(strLtB b.data a.data)

/-- chrono weekday index of a day number: day 0 = 1970-01-01 was a
Thursday, so index 0 = Thursday, 1 = Friday, 2 = Saturday, 3 = Sunday,
4 = Monday, 5 = Tuesday, 6 = Wednesday. -/
def weekday (d : Date) : Int := d % 7

/-- `cache::adjust_weekday_forward`: Saturday moves 2 days forward,
Sunday 1 day forward. -/
def adjust_weekday_forward (d : Date) : Date :=
  if weekday d = 2 then d + 2 else if weekday d = 3 then d + 1 else d

/-- `cache::adjust_weekday_backward`: Saturday moves 1 day back,
Sunday 2 days back. -/
def adjust_weekday_backward (d : Date) : Date :=
  if weekday d = 2 then d - 1 else if weekday d = 3 then d - 2 else d

/-- One row of a cached series (quotes, splits or dividends): the
columns shared by all three are `Ticker` and `Date`; `value` stands for
the remaining numeric payload (`Price` for quotes and dividends, `Qty`
for splits). -/
structure CacheRow where
  ticker : String
  date : Date
  value : ℚ
deriving DecidableEq, Repr

/-- `scraper::SearchPeriod` (src/lib/scraper/mod.rs lines 81-86); the
Rust field `end` is a Lean keyword and is embedded as `endDate`. -/
structure SearchPeriod where
  start : Date
  endDate : Date
  interval_days : ℕ
deriving DecidableEq, Repr

/-- `SearchPeriod::new` (lines 97-110): `end` defaults to "now",
`start` defaults to `end - interval_days`.  The current time is passed
explicitly as `now`. -/
def SearchPeriod.new (start stop : Option Date) (interval_days : Option ℕ) (now : Date) :
    SearchPeriod :=
  let i := interval_days.getD 1
  let e := stop.getD now
  let s := start.getD (e - (i : Int))
  ⟨s, e, i⟩

/-- `scraper::ScraperData`: the three series returned by a scraper. -/
structure ScraperData where
  quotes : List CacheRow
  splits : List CacheRow
  dividends : List CacheRow
deriving DecidableEq, Repr

/-- `ScraperData::concat_quotes` / `concat_splits` / `concat_dividends`
(src/lib/scraper/mod.rs lines 40-78): if the new frame is nonempty,
concatenate, de-duplicate whole rows keeping the first occurrence, and
sort by date; otherwise leave the series unchanged. -/
def concatSeries (old new : List CacheRow) : List CacheRow :=
  if new.length > 0 then
    sortLe (fun a b => decide (a.date ≤ b.date)) (dedupFirst (old ++ new))
  else old

/-- The state of a `Cache<T>`: the contents of the three persisted
series files (a missing or unreadable file is loaded as an empty series
by `load_json(..).unwrap_or_default()`), plus the ticker set registered
through `with_ticker` / `with_currency` for the current request. -/
structure CacheState where
  quotes_cache : List CacheRow
  splits_cache : List CacheRow
  dividends_cache : List CacheRow
  tickers : List String
deriving DecidableEq, Repr

/-- `Cache::is_cache_updated` (src/lib/scraper/cache.rs lines 54-90):
adjust both boundaries backward off weekends, keep the cached quote rows
dated inside `[start, end]`, collect the tickers having at least one
such row (the source sorts, groups by ticker and de-duplicates, which
only affects multiplicity) and demand that every requested ticker
appears. -/
def is_cache_updated (tickers : List String) (df : List CacheRow) (period : SearchPeriod) :
    Bool :=
  let e := adjust_weekday_backward period.endDate
  let s := adjust_weekday_backward period.start
  let filtered := (df.filter (fun r => r.date ≤ e)).filter (fun r => s ≤ r.date)
  let cached_tickers := dedupAdj (sortLe strLeB (filtered.map (fun r => r.ticker)))
  tickers.all (fun t => cached_tickers.contains t)

/-- `Cache::dump_json` writes the file only when the frame is nonempty;
an empty frame leaves the previously persisted contents in place. -/
def dump_json (df old : List CacheRow) : List CacheRow :=
  if df.length > 0 then df else old

/-- `Cache::load` (src/lib/scraper/cache.rs lines 158-229).  `inner` is
the wrapped scraper's `load`, `now` the current date (used when
`SearchPeriod::new` receives no end date).  Returns the data given to
the caller, the post-call cache state, and the list of periods the
inner scraper was invoked with.  The source's `loop` body runs exactly
once — both the cache-hit branch and the fetch branch end in `break` —
so it is embedded as straight-line code.  On the hit branch the three
files are loaded and concatenated into the empty `ScraperData::default`;
when the quotes file is empty the splits and dividends files are not
read at all.  After either branch the quotes and dividends are narrowed
to the requested tickers and to `[adjust_weekday_backward start, end]`
(dividends only when nonempty), the splits are passed through, and
`reset` clears the ticker registration. -/
def Cache.loadStep (inner : SearchPeriod → ScraperData) (now : Date)
    (st : CacheState) (period : SearchPeriod) :
    ScraperData × CacheState × List SearchPeriod :=
  let quotesFile := st.quotes_cache
  let preloaded : ScraperData :=
    if quotesFile.length > 0 then
      { quotes := concatSeries [] quotesFile
        splits := concatSeries [] st.splits_cache
        dividends := concatSeries [] st.dividends_cache }
    else { quotes := [], splits := [], dividends := [] }
  let hit := quotesFile.length > 0 && is_cache_updated st.tickers preloaded.quotes period
  if hit then (preloaded, st, ([] : List SearchPeriod))
  else
    let fp := SearchPeriod.new (some period.start) none (some 1) now
    let data := inner fp
    let merged : ScraperData :=
      { quotes := concatSeries preloaded.quotes data.quotes
        splits := concatSeries preloaded.splits data.splits
        dividends := concatSeries preloaded.dividends data.dividends }
    (merged,
     { st with
        quotes_cache := dump_json merged.quotes st.quotes_cache
        splits_cache := dump_json merged.splits st.splits_cache
        dividends_cache := dump_json merged.dividends st.dividends_cache },
     [fp])

/-- The filter-and-reset tail of `Cache::load` (lines 206-228), applied
to the outcome of the loop body `Cache.loadStep`. -/
def Cache.load (inner : SearchPeriod → ScraperData) (now : Date)
    (st : CacheState) (period : SearchPeriod) :
    ScraperData × CacheState × List SearchPeriod :=
  let step := Cache.loadStep inner now st period
  let cached_data := step.1
  let s := adjust_weekday_backward period.start
  let keep := fun (r : CacheRow) => st.tickers.contains r.ticker
  let quotesOut := ((cached_data.quotes.filter keep).filter
      (fun r => r.date ≤ period.endDate)).filter (fun r => s ≤ r.date)
  let dividendsOut :=
    if cached_data.dividends.length > 0 then
      ((cached_data.dividends.filter keep).filter
        (fun r => r.date ≤ period.endDate)).filter (fun r => s ≤ r.date)
    else cached_data.dividends
  ({ quotes := quotesOut, splits := cached_data.splits, dividends := dividendsOut },
   { step.2.1 with tickers := [] },
   step.2.2)

theorem mem_concatSeries (r : CacheRow) (old new : List CacheRow) :
    r ∈ concatSeries old new ↔ r ∈ old ∨ r ∈ new := by
  unfold concatSeries
  split
  · rw [mem_sortLe, mem_dedupFirst, List.mem_append]
  · rename_i h
    have hnil : new = [] := by
      cases new with
      | nil => rfl
      | cons a t => simp at h
    subst hnil
    simp

/-- Declarative reading of `is_cache_updated`: every requested ticker
has a cached row dated inside the weekend-adjusted window. -/
theorem is_cache_updated_iff (tickers : List String) (df : List CacheRow)
    (period : SearchPeriod) :
    is_cache_updated tickers df period = true ↔
      ∀ t ∈ tickers, ∃ r ∈ df, r.ticker = t ∧
        adjust_weekday_backward period.start ≤ r.date ∧
          r.date ≤ adjust_weekday_backward period.endDate := by
  unfold is_cache_updated
  rw [List.all_eq_true]
  apply forall_congr'
  intro t
  apply imp_congr_right
  intro _
  rw [List.elem_iff, mem_dedupAdj, mem_sortLe, List.mem_map]
  constructor
  · rintro ⟨r, hr, rfl⟩
    have hr2 := List.mem_of_mem_filter (List.mem_of_mem_filter hr)
    have hub : r.date ≤ adjust_weekday_backward period.endDate := by
      have := List.of_mem_filter (List.mem_of_mem_filter hr)
      simpa using this
    have hlb : adjust_weekday_backward period.start ≤ r.date := by
      have := List.of_mem_filter hr
      simpa using this
    exact ⟨r, hr2, rfl, hlb, hub⟩
  · rintro ⟨r, hr, rfl, hlb, hub⟩
    refine ⟨r, ?_, rfl⟩
    refine List.mem_filter.mpr ⟨List.mem_filter.mpr ⟨hr, ?_⟩, ?_⟩ <;> simpa

/-- The only two fetch behaviours of `Cache::load`: no fetch on a cache
hit, exactly one fetch -- from the requested start through now -- on a
miss. -/
theorem Cache.load_fetches (inner : SearchPeriod → ScraperData) (now : Date)
    (st : CacheState) (period : SearchPeriod) :
    (Cache.load inner now st period).2.2 =
      if st.quotes_cache.length > 0 ∧
          is_cache_updated st.tickers (concatSeries [] st.quotes_cache) period = true
      then []
      else [SearchPeriod.new (some period.start) none (some 1) now] := by
  show (Cache.loadStep inner now st period).2.2 = _
  by_cases hq : st.quotes_cache.length > 0
  · by_cases hc : is_cache_updated st.tickers (concatSeries [] st.quotes_cache) period = true
    · simp [Cache.loadStep, hq, hc]
    · simp [Cache.loadStep, hq, hc]
  · simp [Cache.loadStep, hq]

/-- The fetch-skip condition of `Cache::load`, read declaratively over
the raw cached quotes file: the file is nonempty and every requested
ticker has a cached row dated inside the weekend-adjusted window. -/
theorem cacheCovered_iff (st : CacheState) (period : SearchPeriod) :
    (st.quotes_cache.length > 0 ∧
        is_cache_updated st.tickers (concatSeries [] st.quotes_cache) period = true) ↔
      (st.quotes_cache ≠ [] ∧ ∀ t ∈ st.tickers, ∃ r ∈ st.quotes_cache,
        r.ticker = t ∧ adjust_weekday_backward period.start ≤ r.date ∧
          r.date ≤ adjust_weekday_backward period.endDate) := by
  rw [is_cache_updated_iff]
  apply and_congr
  · exact List.length_pos
  · apply forall_congr'
    intro t
    apply imp_congr_right
    intro _
    constructor
    · rintro ⟨r, hr, h⟩
      rw [mem_concatSeries] at hr
      exact ⟨r, hr.resolve_left (List.not_mem_nil r), h⟩
    · rintro ⟨r, hr, h⟩
      exact ⟨r, (mem_concatSeries r [] st.quotes_cache).mpr (Or.inr hr), h⟩

/-- Coverage as claim C4 words it: for every requested ticker a cached
row dated on-or-before `start` and a cached row dated on-or-after `end`,
after the weekend adjustment of both boundaries.  Stated from the
claim's words, to be compared with the code's `is_cache_updated`. -/
def specCovered (tickers : List String) (rows : List CacheRow) (period : SearchPeriod) :
    Prop :=
  ∀ t ∈ tickers,
    (∃ r ∈ rows, r.ticker = t ∧ r.date ≤ adjust_weekday_backward period.start) ∧
      (∃ r ∈ rows, r.ticker = t ∧ adjust_weekday_backward period.endDate ≤ r.date)

/-- An inner scraper that always returns, for ticker X, quotes on days
19723 (2024-01-01), 19754 (2024-02-01), 19783 (2024-03-01) and
19875 (2024-06-01). -/
def innerX : SearchPeriod → ScraperData :=
  fun _ => ⟨[⟨"X", 19723, 1⟩, ⟨"X", 19754, 1⟩, ⟨"X", 19783, 1⟩, ⟨"X", 19875, 1⟩], [], []⟩

/-- An inner scraper that returns nothing. -/
def innerEmpty : SearchPeriod → ScraperData := fun _ => ⟨[], [], []⟩

/-- Counterexample to claim C4: the quotes cache holds a single row for
the requested ticker X dated day 11 (a Monday), strictly inside the
requested window [4, 18] (two Mondays).  `Cache::load` performs no inner
fetch, yet the claim's coverage condition — a row on-or-before the start
and a row on-or-after the end — is false, so "skips the fetch if and
only if the claimed condition holds" fails on the code. -/
theorem c4_counterexample :
    (Cache.load innerEmpty 100 ⟨[⟨"X", 11, 1⟩], [], [], ["X"]⟩ ⟨4, 18, 1⟩).2.2 = [] ∧
      ¬ specCovered ["X"] [⟨"X", 11, 1⟩] ⟨4, 18, 1⟩ := by
  constructor
  · decide
  · simp only [specCovered]
    decide

/-- Claim C4 (amended): `Cache::load` skips the inner fetch exactly when
the cached quotes file is nonempty and every requested ticker has a
cached quote row dated inside the weekend-adjusted requested window
(not necessarily rows straddling both boundaries); in particular, after
a first call that fetched [2024-01-01, 2024-06-01] for ticker X, a
second call for the sub-range [2024-02-01, 2024-03-01] performs no
inner fetch. -/
theorem c4_coverage_amended :
    (∀ (inner : SearchPeriod → ScraperData) (now : Date) (st : CacheState)
        (period : SearchPeriod),
      (Cache.load inner now st period).2.2 = [] ↔
        (st.quotes_cache ≠ [] ∧ ∀ t ∈ st.tickers, ∃ r ∈ st.quotes_cache,
          r.ticker = t ∧ adjust_weekday_backward period.start ≤ r.date ∧
            r.date ≤ adjust_weekday_backward period.endDate)) ∧
      (((Cache.load innerX 19900 ⟨[], [], [], ["X"]⟩ ⟨19723, 19875, 1⟩).2.2).length = 1 ∧
        (Cache.load innerX 19900
            { (Cache.load innerX 19900 ⟨[], [], [], ["X"]⟩ ⟨19723, 19875, 1⟩).2.1 with
              tickers := ["X"] } ⟨19754, 19783, 1⟩).2.2 = []) := by
  refine ⟨?_, by decide, by decide⟩
  intro inner now st period
  rw [Cache.load_fetches]
  rw [← cacheCovered_iff st period]
  split
  · rename_i h
    simp [h]
  · rename_i h
    simp [h]

/-- `utils::polars::first_date`: the earliest date in the frame (sort
the date column ascending and take the head; the source panics on an
empty frame, embedded with default 0). -/
def first_date (rows : List CacheRow) : Date :=
  ((sortLe (fun a b => decide (a ≤ b)) (rows.map (fun r => r.date))).headD 0)

/-- Counterexample to claim C5: a coverage miss (ticker Y has no cached
rows) with a nonempty cache whose earliest quote is day 96; the single
delta fetch requests the period starting at the requested start 103,
not at the earliest cached date 96 as the claim states. -/
theorem c5_counterexample :
    (Cache.load innerEmpty 120 ⟨[⟨"X", 96, 1⟩], [], [], ["X", "Y"]⟩ ⟨103, 110, 1⟩).2.2 =
        [⟨103, 120, 1⟩] ∧
      first_date [⟨"X", 96, 1⟩] = 96 ∧ (103 : Date) ≠ 96 := by
  refine ⟨by decide, by decide, by decide⟩

/-- Claim C5 (amended): on every call `Cache::load` invokes the inner
fetch at most once; every fetch it makes requests the period from the
requested start through "now" with a 1-day interval (never from the
earliest cached date); and on a coverage miss it fetches exactly
once. -/
theorem c5_delta_fetch_amended (inner : SearchPeriod → ScraperData) (now : Date)
    (st : CacheState) (period : SearchPeriod) :
    ((Cache.load inner now st period).2.2).length ≤ 1 ∧
      (∀ fp ∈ (Cache.load inner now st period).2.2,
        fp.start = period.start ∧ fp.endDate = now ∧ fp.interval_days = 1) ∧
      (¬ (st.quotes_cache ≠ [] ∧ ∀ t ∈ st.tickers, ∃ r ∈ st.quotes_cache,
            r.ticker = t ∧ adjust_weekday_backward period.start ≤ r.date ∧
              r.date ≤ adjust_weekday_backward period.endDate) →
        ((Cache.load inner now st period).2.2).length = 1) := by
  rw [Cache.load_fetches]
  by_cases h : st.quotes_cache.length > 0 ∧
      is_cache_updated st.tickers (concatSeries [] st.quotes_cache) period = true
  · rw [if_pos h]
    refine ⟨by simp, by simp, ?_⟩
    intro hn
    exact absurd ((cacheCovered_iff st period).mp h) hn
  · rw [if_neg h]
    refine ⟨by simp, ?_, fun _ => rfl⟩
    intro fp hfp
    rw [List.mem_singleton] at hfp
    subst hfp
    exact ⟨rfl, rfl, rfl⟩

/-- Witness for C5 (amended), at the concrete miss of the
counterexample: the inner fetch happens exactly once. -/
theorem c5_witness :
    ((Cache.load innerEmpty 120 ⟨[⟨"X", 96, 1⟩], [], [], ["X", "Y"]⟩ ⟨103, 110, 1⟩).2.2).length
      = 1 :=
  (c5_delta_fetch_amended innerEmpty 120 ⟨[⟨"X", 96, 1⟩], [], [], ["X", "Y"]⟩
    ⟨103, 110, 1⟩).2.2 (by decide)

/-- Counterexample to claim C6: the splits series is returned without
any narrowing.  With splits cached for ticker Y while only X is
requested, the returned splits still contain the Y row. -/
theorem c6_counterexample :
    (⟨"Y", 11, 2⟩ : CacheRow) ∈
        (Cache.load innerEmpty 100
          ⟨[⟨"X", 11, 1⟩], [⟨"Y", 11, 2⟩], [], ["X"]⟩ ⟨4, 18, 1⟩).1.splits ∧
      ("Y" : String) ∉ (["X"] : List String) := by
  constructor
  · decide
  · decide

/-- Rows surviving the ticker-and-window filter chain of `Cache::load`
satisfy the ticker and date bounds. -/
theorem mem_load_filter (l : List CacheRow) (tickers : List String) (e s : Date)
    (r : CacheRow)
    (hr : r ∈ ((l.filter (fun r => tickers.contains r.ticker)).filter
        (fun r => r.date ≤ e)).filter (fun r => s ≤ r.date)) :
    r.ticker ∈ tickers ∧ s ≤ r.date ∧ r.date ≤ e := by
  have h1 := List.of_mem_filter hr
  have hr2 := List.mem_of_mem_filter hr
  have h2 := List.of_mem_filter hr2
  have hr3 := List.mem_of_mem_filter hr2
  have h3 := List.of_mem_filter hr3
  refine ⟨?_, by simpa using h1, by simpa using h2⟩
  rw [← List.elem_iff]
  exact h3

/-- Claim C6 (amended): on every return of `Cache::load`, the quotes and
dividends series contain only rows whose ticker is in the requested set
and whose date lies in the window from the backward-weekend-adjusted
start through the requested end (so up to two days before a weekend
start can be included); the splits series is passed through without this
narrowing. -/
theorem c6_filter_amended (inner : SearchPeriod → ScraperData) (now : Date)
    (st : CacheState) (period : SearchPeriod) (r : CacheRow)
    (hr : r ∈ (Cache.load inner now st period).1.quotes ∨
        r ∈ (Cache.load inner now st period).1.dividends) :
    r.ticker ∈ st.tickers ∧ adjust_weekday_backward period.start ≤ r.date ∧
      r.date ≤ period.endDate := by
  rcases hr with hq | hd
  · simp only [Cache.load] at hq
    have := mem_load_filter _ st.tickers period.endDate
      (adjust_weekday_backward period.start) r hq
    exact ⟨this.1, this.2.1, this.2.2⟩
  · simp only [Cache.load] at hd
    split at hd
    · have := mem_load_filter _ st.tickers period.endDate
        (adjust_weekday_backward period.start) r hd
      exact ⟨this.1, this.2.1, this.2.2⟩
    · rename_i hlen
      have hnil : ∀ x : List CacheRow, ¬ x.length > 0 → x = [] := by
        intro x hx
        cases x with
        | nil => rfl
        | cons a t => simp at hx
      rw [hnil _ hlen] at hd
      exact absurd hd (List.not_mem_nil r)

/-- Witness for C6 (amended): the single returned quote row of a served
request satisfies the bounds. -/
theorem c6_witness :
    ("X" : String) ∈ (["X"] : List String) ∧
      adjust_weekday_backward 4 ≤ (11 : Date) ∧ (11 : Date) ≤ 18 :=
  c6_filter_amended innerEmpty 100 ⟨[⟨"X", 11, 1⟩], [], [], ["X"]⟩ ⟨4, 18, 1⟩
    ⟨"X", 11, 1⟩ (Or.inl (by decide))

/- ------------------------------------------------------------------
   Currency normalizer (src/lib/currency.rs)
   ------------------------------------------------------------------ -/

/-- The `Currency` enum of src/lib/schema.rs (strum-serialized in
UPPERCASE). -/
inductive Currency where
  | BRL
  | EUR
  | GBP
  | GBX
  | USD
  | NA
deriving DecidableEq, Repr

/-- `Currency::as_str` (strum `IntoStaticStr`, UPPERCASE). -/
def Currency.asStr : Currency → String
  | Currency.BRL => "BRL"
  | Currency.EUR => "EUR"
  | Currency.GBP => "GBP"
  | Currency.GBX => "GBX"
  | Currency.USD => "USD"
  | Currency.NA => "NA"

/-- `str::parse::<Currency>` (strum `EnumString`, UPPERCASE): inverse of
`asStr` on the six known codes, failure otherwise. -/
def Currency.fromStr (s : String) : Option Currency :=
  if s = "BRL" then some Currency.BRL
  else if s = "EUR" then some Currency.EUR
  else if s = "GBP" then some Currency.GBP
  else if s = "GBX" then some Currency.GBX
  else if s = "USD" then some Currency.USD
  else if s = "NA" then some Currency.NA
  else none

/-- One row of a table passed to `normalize`: the value of the
`by_col` currency column, the values of the columns listed in
`columns` (the ones to be scaled), and the remaining numeric columns
(untouched by the conversion). -/
structure CRow where
  currency : String
  scaled : List ℚ
  rest : List ℚ
deriving DecidableEq, Repr

/-- Lines 24-26 of src/lib/currency.rs: collect the currency column,
sort and dedup (`Vec::sort` then `Vec::dedup`, so the distinct values in
sorted order). -/
def distinctCurrencies (table : List CRow) : List String :=
  dedupAdj (sortLe strLeB (table.map (fun r => r.currency)))

/-- The parse step of lines 32-39: each distinct currency string is
parsed; the first failure aborts `normalize` with a context error. -/
def parseAll : List String → Except String (List Currency)
  | [] => Except.ok []
  | s :: rest =>
      match Currency.fromStr s with
      | none => Except.error ("Can't parse " ++ s)
      | some c =>
          match parseAll rest with
          | Except.error e => Except.error e
          | Except.ok cs => Except.ok (c :: cs)

/-- The `with_currency` registrations of lines 32-39: one pair
`(c, target)` per parsed currency different from the target. -/
def pairsOf (parsed : List Currency) (currency : Currency) : List (Currency × Currency) :=
  (parsed.filter (fun c => c ≠ currency)).map (fun c => (c, currency))

/-- `split_once('/').0` of line 68: the origin currency of a pair
ticker such as "USD/GBP". -/
def originOf (tk : String) : String := (tk.splitOn "/").headD tk

/-- The `col(Price).last()` aggregation of lines 59-61: the last quote
price of the group of rows with this pair ticker. -/
def lastPriceOf (quotes : List CacheRow) (tk : String) : ℚ :=
  ((quotes.filter (fun q => q.ticker = tk)).map (fun q => q.value)).getLastD 0

/-- The exchange-rate table of lines 47-87: one `(origin currency,
rate)` entry per distinct pair ticker of the returned quotes, plus the
explicitly injected identity entry `(target, 1.0)`. -/
def rateTable (quotes : List CacheRow) (currency : Currency) : List (String × ℚ) :=
  (dedupFirst (quotes.map (fun q => q.ticker))).map
    (fun tk => (originOf tk, lastPriceOf quotes tk)) ++ [(currency.asStr, 1)]

/-- The left-join-and-scale step of lines 89-107, for one row: look the
row's currency up in the rate table, defaulting to 1 when absent
(`fill_null(lit(1))`), scale the listed columns, overwrite the currency
column with the target. -/
def convertRow (rt : List (String × ℚ)) (currency : Currency) (r : CRow) : CRow :=
  let rate := (rt.lookup r.currency).getD 1
  { currency := currency.asStr, scaled := r.scaled.map (fun x => x * rate), rest := r.rest }

/-- `currency::normalize` (src/lib/currency.rs lines 8-110).  The
scraper is modelled as a function from the registered currency pairs
and the search period to the quote rows it returns (Yahoo catches
per-ticker errors and simply omits the rows, cf. yahoo.rs lines
187-190).  The second component counts the `load_blocking` calls
performed.  Steps: `ensure!` the table is nonempty; distinct currency
values; identity short-circuit; parse; fetch the pair quotes anchored
three days back from `present_date`; build the rate table; left-join
with default 1, scale, overwrite the currency column. -/
def normalize (table : List CRow) (currency : Currency)
    (scraper : List (Currency × Currency) → SearchPeriod → List CacheRow)
    (present_date : Option Date) (now : Date) :
    Except String (List CRow) × ℕ :=
  if table.length > 0 then
    let currencies := distinctCurrencies table
    if currencies = [currency.asStr] then (Except.ok table, 0)
    else
      match parseAll currencies with
      | Except.error e => (Except.error e, 0)
      | Except.ok parsed =>
          let quotes := scraper (pairsOf parsed currency)
            (SearchPeriod.new (present_date.map (fun d => d - 3)) present_date none now)
          (Except.ok (table.map (convertRow (rateTable quotes currency) currency)), 1)
  else (Except.error "Argument table must not be empty!", 0)

theorem strLtB_irrefl (cs : List Char) : strLtB cs cs = false := by
  induction cs with
  | nil => rfl
  | cons c t ih => simp [strLtB, ih]

theorem strLeB_refl (s : String) : strLeB s s = true := by
  simp [strLeB, strLtB_irrefl]

theorem insertLe_const {α : Type} (le : α → α → Bool) (v : α) (l : List α)
    (hrefl : le v v = true) (h : ∀ x ∈ l, x = v) : insertLe le v l = v :: l := by
  cases l with
  | nil => rfl
  | cons a t =>
      have ha : a = v := h a (List.mem_cons_self a t)
      subst ha
      simp [insertLe, hrefl]

theorem sortLe_const {α : Type} (le : α → α → Bool) (v : α) (l : List α)
    (hrefl : le v v = true) (h : ∀ x ∈ l, x = v) : sortLe le l = l := by
  induction l with
  | nil => rfl
  | cons a t ih =>
      have ha : a = v := h a (List.mem_cons_self a t)
      have ht : ∀ x ∈ t, x = v := fun x hx => h x (List.mem_cons_of_mem _ hx)
      rw [sortLe, ih ht, ha, insertLe_const le v t hrefl ht]

theorem dedupAdj_const {α : Type} [DecidableEq α] (v : α) (l : List α)
    (h : ∀ x ∈ l, x = v) (hne : l ≠ []) : dedupAdj l = [v] := by
  induction l with
  | nil => exact absurd rfl hne
  | cons a t ih =>
      have ha : a = v := h a (List.mem_cons_self a t)
      have ht : ∀ x ∈ t, x = v := fun x hx => h x (List.mem_cons_of_mem _ hx)
      subst ha
      cases t with
      | nil => rfl
      | cons b u =>
          have hb : b = a := (h b (by simp)).trans (h a (by simp)).symm
          rw [dedupAdj, if_pos hb.symm]
          exact ih ht (by simp)

/-- Claim C7: for every non-empty table whose currency column's set of
distinct values is exactly the target currency, `normalize` returns the
input unchanged and performs no scraper load. -/
theorem c7_currency_identity (table : List CRow) (currency : Currency)
    (scraper : List (Currency × Currency) → SearchPeriod → List CacheRow)
    (present_date : Option Date) (now : Date)
    (hne : table ≠ [])
    (hall : ∀ r ∈ table, r.currency = currency.asStr) :
    normalize table currency scraper present_date now = (Except.ok table, 0) := by
  have hlen : table.length > 0 := List.length_pos.mpr hne
  have hmap : ∀ x ∈ table.map (fun r => r.currency), x = currency.asStr := by
    intro x hx
    obtain ⟨r, hr, rfl⟩ := List.mem_map.mp hx
    exact hall r hr
  have hdist : distinctCurrencies table = [currency.asStr] := by
    unfold distinctCurrencies
    rw [sortLe_const strLeB currency.asStr _ (strLeB_refl _) hmap]
    apply dedupAdj_const _ _ hmap
    simpa using hne
  unfold normalize
  rw [if_pos hlen, hdist, if_pos rfl]

/-- Witness for C7: a one-row USD table normalized to USD is returned
unchanged with zero scraper loads. -/
theorem c7_witness :
    normalize [⟨"USD", [150], []⟩] Currency.USD (fun _ _ => []) none 0 =
      (Except.ok [(⟨"USD", [150], []⟩ : CRow)], 0) :=
  c7_currency_identity [⟨"USD", [150], []⟩] Currency.USD (fun _ _ => []) none 0
    (by decide) (by decide)

/-- Claim C10: `normalize` rejects an empty input table with an error,
before the identity short-circuit is even considered, for every target
currency and scraper. -/
theorem c10_empty_table_rejected (currency : Currency)
    (scraper : List (Currency × Currency) → SearchPeriod → List CacheRow)
    (present_date : Option Date) (now : Date) :
    normalize [] currency scraper present_date now =
      (Except.error "Argument table must not be empty!", 0) := rfl

/-- Claim C8: when every distinct currency parses and the identity
short-circuit does not apply, `normalize` returns successfully (the
scraper yielding no rate for some pair never aborts the operation), and
every row whose currency has no entry in the rate table is returned
with its scaled columns unchanged (rate defaulted to 1) while its
currency column is overwritten with the target. -/
theorem c8_missing_rate_fallback (table : List CRow) (currency : Currency)
    (scraper : List (Currency × Currency) → SearchPeriod → List CacheRow)
    (present_date : Option Date) (now : Date) (parsed : List Currency)
    (hne : table.length > 0)
    (hnid : distinctCurrencies table ≠ [currency.asStr])
    (hp : parseAll (distinctCurrencies table) = Except.ok parsed) :
    normalize table currency scraper present_date now =
        (Except.ok (table.map (convertRow
          (rateTable (scraper (pairsOf parsed currency)
            (SearchPeriod.new (present_date.map (fun d => d - 3)) present_date none now))
            currency) currency)), 1) ∧
      (∀ (rt : List (String × ℚ)) (r : CRow), (∀ p ∈ rt, p.1 ≠ r.currency) →
        convertRow rt currency r =
          { currency := currency.asStr, scaled := r.scaled, rest := r.rest }) := by
  constructor
  · unfold normalize
    rw [if_pos hne, if_neg hnid, hp]
  · intro rt r hmiss
    have hlook : rt.lookup r.currency = none := by
      induction rt with
      | nil => rfl
      | cons p ps ih =>
          obtain ⟨k, v⟩ := p
          have hk : (r.currency == k) = false := by
            refine beq_eq_false_iff_ne.mpr ?_
            exact fun h => (hmiss (k, v) (List.mem_cons_self _ ps)) h.symm
          simp only [List.lookup, hk]
          exact ih (fun q hq => hmiss q (List.mem_cons_of_mem _ hq))
    unfold convertRow
    rw [hlook]
    simp

/-- A table mixing a GBX row (for which the scraper will yield no
rate) and a USD row. -/
def tableGBX : List CRow := [⟨"GBX", [100], []⟩, ⟨"USD", [5], []⟩]

/-- Witness for C8: normalizing `tableGBX` to USD with a scraper that
returns no quotes succeeds, and the GBX row (absent from the rate table
`[("USD", 1)]`) keeps its scaled value 100 while its currency becomes
USD. -/
theorem c8_witness :
    normalize tableGBX Currency.USD (fun _ _ => []) none 0 =
        (Except.ok (tableGBX.map (convertRow
          (rateTable ((fun (_ : List (Currency × Currency)) (_ : SearchPeriod) =>
              ([] : List CacheRow)) (pairsOf [Currency.GBX, Currency.USD] Currency.USD)
            (SearchPeriod.new (Option.map (fun d => d - 3) none) none none 0))
            Currency.USD) Currency.USD)), 1) ∧
      convertRow [("USD", 1)] Currency.USD ⟨"GBX", [100], []⟩ =
        { currency := Currency.USD.asStr, scaled := [(100 : ℚ)], rest := [] } :=
  have h := c8_missing_rate_fallback tableGBX Currency.USD (fun _ _ => []) none 0
    [Currency.GBX, Currency.USD] (by decide) (by decide) (by rfl)
  ⟨h.1, h.2 [("USD", 1)] ⟨"GBX", [100], []⟩ (by decide)⟩

/- ------------------------------------------------------------------
   Claim C9: the Buy-branch division of the average-cost fold
   ------------------------------------------------------------------ -/

/-- The denominators used by the Buy branch of the fold: instrumentation
of `costStep` recording, at every Buy row, the value `cum_qty + qty` the
source divides by (src/lib/perpetual_inventory.rs lines 57-62 divide
unconditionally in the Buy arm). -/
def buyDenoms (s : ℚ × ℚ) : List Order → List ℚ
  | [] => []
  | o :: rest =>
      match o.action with
      | Action.Buy => (s.2 + o.qty) :: buyDenoms (costStep s o) rest
      | _ => buyDenoms (costStep s o) rest

/-- All Buy-branch denominators arising while `with_cumulative`
processes a ledger: the filtered rows are partitioned by ticker and each
group is folded from `(0, 0)`. -/
def ledger_buy_denominators (orders : List Order) : List ℚ :=
  ((dedupFirst ((orders.filter buy_or_sell_or_split).map (fun o => o.ticker))).map
    (fun t => buyDenoms (0, 0) (tickerGroup t (orders.filter buy_or_sell_or_split)))).flatten

/-- A ledger of plausible rows — every quantity positive — on which the
Buy branch divides by zero: buy 5, oversell 10, buy 5 again. -/
def ordersOversell : List Order :=
  [⟨"X", 0, 5, 10, Action.Buy⟩,
   ⟨"X", 1, 10, 11, Action.Sell⟩,
   ⟨"X", 2, 5, 20, Action.Buy⟩]

/-- Counterexample to claim C9: the Buy-branch division is not guarded;
on `ordersOversell` the second Buy divides by `cum_qty + qty = -5 + 5 =
0`, so a zero denominator is reachable. -/
theorem c9_counterexample :
    (0 : ℚ) ∈ ledger_buy_denominators ordersOversell := by
  norm_num [ledger_buy_denominators, buyDenoms, costStep, tickerGroup, buy_or_sell_or_split,
    ordersOversell, dedupFirst, dedupFirstAux, List.filter, String.reduceEq,
    decide_True, decide_False]

/-- Boolean admissibility of a ledger fragment with respect to a running
state: Buy and Split rows carry positive quantities and Sell rows never
sell more than the accrued quantity. -/
def admissible (s : ℚ × ℚ) : List Order → Bool
  | [] => true
  | o :: rest =>
      (match o.action with
       | Action.Buy => decide (0 < o.qty)
       | Action.Sell => decide (o.qty ≤ s.2)
       | Action.Split => decide (0 < o.qty)
       | _ => true) && admissible (costStep s o) rest

/-- Along an admissible fragment started from a nonnegative accrued
quantity, every Buy denominator is positive. -/
theorem buyDenoms_pos (l : List Order) :
    ∀ s : ℚ × ℚ, admissible s l = true → 0 ≤ s.2 → ∀ d ∈ buyDenoms s l, 0 < d := by
  induction l with
  | nil => intro s _ _ d hd; simp [buyDenoms] at hd
  | cons o rest ih =>
      intro s hadm hs d hd
      rw [admissible, Bool.and_eq_true] at hadm
      obtain ⟨hhead, htail⟩ := hadm
      cases ha : o.action with
      | Buy =>
          rw [ha] at hhead
          have hq : 0 < o.qty := by simpa using hhead
          have hden : 0 < s.2 + o.qty := add_pos_of_nonneg_of_pos hs hq
          rw [buyDenoms, ha] at hd
          simp only [List.mem_cons] at hd
          rcases hd with rfl | hd
          · exact hden
          · have hs2 : (costStep s o).2 = s.2 + o.qty := by simp [costStep, ha]
            exact ih (costStep s o) htail (hs2 ▸ le_of_lt hden) d hd
      | Sell =>
          rw [ha] at hhead
          have hq : o.qty ≤ s.2 := by simpa using hhead
          rw [buyDenoms, ha] at hd
          have hs2 : (costStep s o).2 = s.2 - o.qty := by simp [costStep, ha]
          exact ih (costStep s o) htail (by rw [hs2]; linarith) d hd
      | Split =>
          rw [ha] at hhead
          have hq : 0 < o.qty := by simpa using hhead
          rw [buyDenoms, ha] at hd
          have hs2 : (costStep s o).2 = s.2 * o.qty := by simp [costStep, ha]
          exact ih (costStep s o) htail (by rw [hs2]; positivity) d hd
      | Dividend =>
          rw [buyDenoms, ha] at hd
          have hs2 : (costStep s o).2 = s.2 := by simp [costStep, ha]
          exact ih (costStep s o) htail (hs2 ▸ hs) d hd
      | Deposit =>
          rw [buyDenoms, ha] at hd
          have hs2 : (costStep s o).2 = s.2 := by simp [costStep, ha]
          exact ih (costStep s o) htail (hs2 ▸ hs) d hd
      | Tax =>
          rw [buyDenoms, ha] at hd
          have hs2 : (costStep s o).2 = s.2 := by simp [costStep, ha]
          exact ih (costStep s o) htail (hs2 ▸ hs) d hd
      | Fee =>
          rw [buyDenoms, ha] at hd
          have hs2 : (costStep s o).2 = s.2 := by simp [costStep, ha]
          exact ih (costStep s o) htail (hs2 ▸ hs) d hd
      | Interest =>
          rw [buyDenoms, ha] at hd
          have hs2 : (costStep s o).2 = s.2 := by simp [costStep, ha]
          exact ih (costStep s o) htail (hs2 ▸ hs) d hd
      | Withdraw =>
          rw [buyDenoms, ha] at hd
          have hs2 : (costStep s o).2 = s.2 := by simp [costStep, ha]
          exact ih (costStep s o) htail (hs2 ▸ hs) d hd
      | Ignore =>
          rw [buyDenoms, ha] at hd
          have hs2 : (costStep s o).2 = s.2 := by simp [costStep, ha]
          exact ih (costStep s o) htail (hs2 ▸ hs) d hd

/-- Claim C9 (amended): the Buy-branch division of `with_cumulative` is
not guarded in the source; a zero denominator is unreachable only under
a precondition on the ledger — for every ledger whose per-ticker groups
are admissible (Buy and Split rows have positive quantity and no Sell
row sells more than the accrued quantity), every Buy row divides by a
strictly positive `new_cum`, so no division by zero occurs. -/
theorem c9_buy_guard_amended (orders : List Order)
    (hadm : ∀ t ∈ (orders.filter buy_or_sell_or_split).map (fun o => o.ticker),
      admissible (0, 0) (tickerGroup t (orders.filter buy_or_sell_or_split)) = true) :
    (0 : ℚ) ∉ ledger_buy_denominators orders := by
  intro h0
  unfold ledger_buy_denominators at h0
  rw [List.mem_flatten] at h0
  obtain ⟨l, hl, h0l⟩ := h0
  rw [List.mem_map] at hl
  obtain ⟨t, ht, rfl⟩ := hl
  rw [mem_dedupFirst] at ht
  have := buyDenoms_pos _ _ (hadm t ht) le_rfl 0 h0l
  exact lt_irrefl 0 this

/-- Witness for C9 (amended): the GOOGL ledger (two buys and a covered
sell) is admissible, so none of its Buy denominators is zero. -/
theorem c9_witness : (0 : ℚ) ∉ ledger_buy_denominators ordersGOOGL :=
  c9_buy_guard_amended ordersGOOGL (by
    norm_num [admissible, costStep, tickerGroup, buy_or_sell_or_split, ordersGOOGL,
      List.filter, String.reduceEq, decide_True, decide_False])

end ReisFinance
